import Mathlib

/-!
Verification of the `lists-rs` repository: three singly-linked list types
(`src/second.rs` OwnedStack, `src/third.rs` PersistentList over `Rc`,
`src/fifth.rs` OwnedDeque with a raw tail pointer), shallowly embedded.

Conventions of the embedding:
* `Box<Node<T>>` is transparent; an owned chain `Option<Box<Node<T>>>` is
  flattened into the inductive `Second.Link`.
* The two pointer-based files (`third.rs` with `Rc<Node<T>>`, `fifth.rs`
  with `*mut Node<T>`) are embedded against an explicit heap
  `Nat → Option node` with a monotone allocation counter `fresh`; a pointer
  is a `Nat` address, `Option Nat` stands for a nullable pointer
  (`None` = null / `Option::None`).
* Operations whose Rust code can only misbehave by touching a dangling or
  null pointer (undefined behaviour) return `Option`: `none` marks the
  undefined-behaviour case, which the proved invariants rule out.
-/

/-- Core Lean lists, under a name that stays visible inside the namespaces
below (each of which declares its own `List`, matching the Rust names). -/
abbrev Elems (α : Type) : Type := List α

/-- `hupdate h a v` is the heap `h` with address `a` now holding `v`. -/
def hupdate {β : Type} (h : Nat → Option β) (a : Nat) (v : β) : Nat → Option β :=
  fun x => if x = a then some v else h x

/-- `hremove h a` is the heap `h` with address `a` deallocated. -/
def hremove {β : Type} (h : Nat → Option β) (a : Nat) : Nat → Option β :=
  fun x => if x = a then none else h x

/-- `HeapChain f p as es`: starting from the (nullable) pointer `p`, the
heap view `f` (each cell projected to its element and its `next` pointer)
spells out the acyclic chain of addresses `as` carrying the elements `es`.
This is the representation predicate shared by the two heap-based models. -/
inductive HeapChain {α : Type} (f : Nat → Option (α × Option Nat)) :
    Option Nat → List Nat → List α → Prop where
  | nil : HeapChain f none [] []
  | cons {a : Nat} {e : α} {p : Option Nat} {as : List Nat} {es : List α} :
      f a = some (e, p) → HeapChain f p as es →
      HeapChain f (some a) (a :: as) (e :: es)

namespace Second

/- ===== src/second.rs =====
   type Link<T> = Option<Box<Node<T>>>;
   struct Node<T> { elem: T, next: Link<T> }
   `Link.some e n` stands for `Some(Box(Node { elem: e, next: n }))`. -/

inductive Link (α : Type) : Type where
  | none : Link α
  | some (elem : α) (next : Link α) : Link α
deriving DecidableEq

/-- pub struct List<T> { head: Link<T> } -/
structure List (α : Type) : Type where
  head : Link α
deriving DecidableEq

/-- pub fn new() -> Self { List { head: None } } -/
def List.new {α : Type} : Second.List α := ⟨Link.none⟩

/-- pub fn peek(&mut self) -> Option<&T> { self.head.as_ref().map(|elem| &elem.elem) } -/
def List.peek {α : Type} (l : Second.List α) : Option α :=
  match l.head with
  | Link.none => Option.none
  | Link.some e _ => Option.some e

/-- pub fn push(&mut self, elem: T): the new node's `next` takes the old
head (`self.head.take()`), then the new node becomes the head. -/
def List.push {α : Type} (l : Second.List α) (elem : α) : Second.List α :=
  ⟨Link.some elem l.head⟩

/-- pub fn pop(&mut self) -> Option<T>: `self.head.take().map(|node| {
self.head = node.next; node.elem })`.  Returns the popped element together
with the list after the call (`&mut self` made explicit). -/
def List.pop {α : Type} (l : Second.List α) : Option α × Second.List α :=
  match l.head with
  | Link.none => (Option.none, l)
  | Link.some e n => (Option.some e, ⟨n⟩)

/-- pub fn push_back(&mut self, elem: T): the loop walks `tail` down the
`next` links to the end of the chain and plants the new node there; the
cursor recursion renders that loop. -/
def Link.pushBack {α : Type} : Link α → α → Link α
  | Link.none, elem => Link.some elem Link.none
  | Link.some e n, elem => Link.some e (Link.pushBack n elem)

def List.pushBack {α : Type} (l : Second.List α) (elem : α) : Second.List α :=
  ⟨Link.pushBack l.head elem⟩

/-- pub struct Iter<'a, T> { next: Option<&'a Node<T>> } — the cursor holds
a borrowed view of the remaining chain. -/
structure Iter (α : Type) : Type where
  next : Link α

/-- pub fn iter(&self) -> Iter<T> { Iter { next: self.head.as_deref() } } -/
def List.iter {α : Type} (l : Second.List α) : Iter α :=
  ⟨l.head⟩

/-- impl Iterator for Iter: `self.next.map(|node| { self.next =
node.next.as_deref(); &node.elem })`.  (The struct field is `next`, so the
trait method `next` is rendered as `iterNext`.) -/
def iterNext {α : Type} (it : Iter α) : Option α × Iter α :=
  match it.next with
  | Link.none => (Option.none, ⟨Link.none⟩)
  | Link.some e n => (Option.some e, ⟨n⟩)

/-- One pass of the `while let Some(boxed) = elem { elem = boxed.next }`
loop in `impl Drop for List` (src/second.rs lines 217-227): detach the
current head node and move to its `next`. -/
def dropStep {α : Type} : Link α → Link α
  | Link.none => Link.none
  | Link.some _ n => n

/-- The elements of a chain, head first. -/
def Link.elems {α : Type} : Link α → Elems α
  | Link.none => []
  | Link.some e n => e :: Link.elems n

def List.elems {α : Type} (l : Second.List α) : Elems α :=
  l.head.elems

/-- The chain a list's iterator yields when driven to exhaustion with
`iterNext`; recursion on the cursor mirrors the repeated calls. -/
def Iter.collect {α : Type} (it : Iter α) : Elems α :=
  match h : it.next with
  | Link.none => []
  | Link.some e n => e :: Iter.collect ⟨n⟩
termination_by sizeOf it.next
decreasing_by simp [h]

/-- The `#[derive(PartialEq)]` on `Node`/`List` (src/second.rs lines 3-11):
structural equality, `Option`s equal when both `None` or both `Some` of
equal `Box<Node>`s, nodes equal when elements and `next` chains are. -/
def Link.beq {α : Type} [DecidableEq α] : Link α → Link α → Bool
  | Link.none, Link.none => true
  | Link.some e1 n1, Link.some e2 n2 => decide (e1 = e2) && Link.beq n1 n2
  | _, _ => false

def List.beq {α : Type} [DecidableEq α] (l1 l2 : Second.List α) : Bool :=
  Link.beq l1.head l2.head

/-- The derive attribute on src/second.rs's `List` (line 3):
`#[derive(PartialEq, Debug)]`. -/
def listDerives : Elems String := ["PartialEq", "Debug"]

/-- Push a whole sequence, first element first. -/
def List.pushAll {α : Type} (l : Second.List α) : Elems α → Second.List α
  | [] => l
  | e :: es => (l.push e).pushAll es

/-- Pop `n` times, collecting the `n` results in call order. -/
def List.popN {α : Type} (l : Second.List α) : Nat → Elems (Option α) × Second.List α
  | 0 => ([], l)
  | n + 1 =>
    let r := l.pop
    let rest := r.2.popN n
    (r.1 :: rest.1, rest.2)

end Second

namespace Third

/- ===== src/third.rs =====
   type Link<T> = Option<Rc<Node<T>>>;
   struct Node<T> { elem: T, next: Link<T> }
   An `Rc<Node<T>>` is an address into the heap below; each cell carries
   its strong reference count `rc`. -/

structure Node (α : Type) : Type where
  elem : α
  next : Option Nat
  rc : Nat

/-- The reference-counted heap shared by every `third.rs` list value,
together with the allocator's next fresh address. -/
structure Heap (α : Type) : Type where
  mem : Nat → Option (Third.Node α)
  fresh : Nat

/-- The element/next view of the heap that `HeapChain` reads (reference
counts do not affect which elements a chain spells). -/
def proj {α : Type} (h : Third.Heap α) : Nat → Option (α × Option Nat) :=
  fun a => (h.mem a).map (fun n => (n.elem, n.next))

/-- pub struct List<T> { head: Link<T> } -/
structure List (α : Type) : Type where
  head : Option Nat

/-- pub fn new() -> Self { List { head: None } } -/
def List.new {α : Type} : Third.List α := ⟨Option.none⟩

/-- `Link::clone` (`self.head.clone()` in `prepend`, `e.next.clone()` in
`tail`): increment the strong count of the pointed-to node; cloning `None`
is a no-op.  `none` = the pointer dangles (cannot happen for a live `Rc`). -/
def clone {α : Type} (h : Third.Heap α) (p : Option Nat) : Option (Third.Heap α) :=
  match p with
  | Option.none => Option.some h
  | Option.some a =>
    match h.mem a with
    | Option.none => Option.none
    | Option.some n =>
      Option.some ⟨hupdate h.mem a { n with rc := n.rc + 1 }, h.fresh⟩

/-- Dropping a `Link<T>` (an `Option<Rc<Node<T>>>`): decrement the count;
on reaching zero, deallocate the node and drop its `next` in turn.  This is
both what Rust's built-in `Rc` drop does and, cell for cell, what the
explicit loop in `impl Drop for List` (src/third.rs lines 63-82) does:
`Rc::try_unwrap` succeeds exactly when `rc == 1` (then the cell is freed
and the loop continues on `next`), and the dropped `Err` handle decrements
the count and the loop breaks.  `fuel` bounds the walk; any fuel at least
the chain's length is enough, so `none` only on cyclic or dangling data. -/
def releaseLink {α : Type} (h : Third.Heap α) : Option Nat → Nat → Option (Third.Heap α)
  | Option.none, _ => Option.some h
  | Option.some _, 0 => Option.none
  | Option.some a, fuel + 1 =>
    match h.mem a with
    | Option.none => Option.none
    | Option.some n =>
      if n.rc = 1 then
        releaseLink ⟨hremove h.mem a, h.fresh⟩ n.next fuel
      else
        Option.some ⟨hupdate h.mem a { n with rc := n.rc - 1 }, h.fresh⟩

/-- pub fn prepend(&self, elem: T) -> Self: `Rc::new(Node { elem, next:
self.head.clone() })` — clone the head link (count bump), allocate the new
node with count 1, return the new list value; the receiver is untouched. -/
def List.prepend {α : Type} (h : Third.Heap α) (l : Third.List α) (elem : α) :
    Option (Third.Heap α × Third.List α) :=
  match clone h l.head with
  | Option.none => Option.none
  | Option.some h1 =>
    Option.some
      (⟨hupdate h1.mem h1.fresh ⟨elem, l.head, 1⟩, h1.fresh + 1⟩,
       ⟨Option.some h1.fresh⟩)

/-- pub fn head(&self) -> Option<&T> { self.head.as_ref().map(|node|
&node.elem) }.  (The struct field is `head`, so the method `head` is
rendered as `headVal`.)  Outer `none` = dangling head pointer (never
happens for a live list); `some Option.none` = the list is empty. -/
def List.headVal {α : Type} (h : Third.Heap α) (l : Third.List α) : Option (Option α) :=
  match l.head with
  | Option.none => Option.some Option.none
  | Option.some a =>
    match h.mem a with
    | Option.none => Option.none
    | Option.some n => Option.some (Option.some n.elem)

/-- pub fn tail(&self) -> Self (src/third.rs lines 33-60): the unused local
`b = self.head.as_ref().and_then(|e| e.next.clone())` clones the second
link, then `c` clones it again via `map` + `flatten` and becomes the new
list's head; `b` is dropped when the function returns.  `h.fresh` bounds
the length of any acyclic chain in a heap whose live addresses sit below
`fresh`, so it serves as the drop walk's fuel. -/
def List.tail {α : Type} (h : Third.Heap α) (l : Third.List α) :
    Option (Third.Heap α × Third.List α) :=
  match l.head with
  | Option.none => Option.some (h, ⟨Option.none⟩)
  | Option.some a =>
    match h.mem a with
    | Option.none => Option.none
    | Option.some n =>
      match clone h n.next with            -- b = … e.next.clone()
      | Option.none => Option.none
      | Option.some h1 =>
        match clone h1 n.next with         -- c = … e.next.clone(), flattened
        | Option.none => Option.none
        | Option.some h2 =>
          match releaseLink h2 n.next h2.fresh with   -- drop of the local b
          | Option.none => Option.none
          | Option.some h3 => Option.some (h3, ⟨n.next⟩)

/-- src/third.rs's `List` (line 3) carries no derive attribute: no
`PartialEq`, no `Debug`. -/
def listDerives : Elems String := []

/-- The empty heap the examples start from. -/
def Heap.empty {α : Type} : Third.Heap α := ⟨fun _ => Option.none, 0⟩

end Third

namespace Fifth

/- ===== src/fifth.rs =====
   pub struct List<T> { head: Link<T>, tail: *mut Node<T> }
   type Link<T> = Option<Box<Node<T>>>;
   struct Node<T> { elem: T, next: Link<T> }
   The boxes of one list live in that list's private heap below; `tail`
   is the raw pointer (`none` = `null_mut()`), `fresh` the allocator. -/

structure Node (α : Type) : Type where
  elem : α
  next : Option Nat

/-- The list struct plus the heap of nodes it owns and the allocation
counter; `head` and `tail` are the two Rust fields. -/
structure List (α : Type) : Type where
  heap : Nat → Option (Fifth.Node α)
  head : Option Nat
  tail : Option Nat
  fresh : Nat

/-- The element/next view `HeapChain` reads. -/
def proj {α : Type} (h : Nat → Option (Fifth.Node α)) : Nat → Option (α × Option Nat) :=
  fun a => (h a).map (fun n => (n.elem, n.next))

/-- pub fn new() -> Self { List { head: None, tail: null_mut() } } -/
def List.new {α : Type} : Fifth.List α :=
  ⟨fun _ => Option.none, Option.none, Option.none, 0⟩

/-- pub fn push(&mut self, elem: T) (src/fifth.rs lines 66-91): box a new
node with `next: None` (here: allocate it at `fresh`), take `raw_tail` as
its address; if the old tail pointer is non-null, write the new box into
`(*self.tail).next`, else make it the head; finally `self.tail = raw_tail`.
`none` = the write `(*self.tail).next` went through a dangling pointer. -/
def List.push {α : Type} (l : Fifth.List α) (elem : α) : Option (Fifth.List α) :=
  let a := l.fresh
  let h1 := hupdate l.heap a ⟨elem, Option.none⟩
  match l.tail with
  | Option.some t =>
    match h1 t with
    | Option.none => Option.none
    | Option.some n =>
      Option.some ⟨hupdate h1 t { n with next := Option.some a }, l.head,
                   Option.some a, a + 1⟩
  | Option.none =>
    Option.some ⟨h1, Option.some a, Option.some a, a + 1⟩

/-- pub fn pop(&mut self) -> Option<T> (src/fifth.rs lines 94-105): take
the head box, move its `next` into `self.head`, clear `self.tail` to null
when the list became empty, return the element (the popped box is freed).
Outer `none` = the head pointed at a missing node (cannot happen). -/
def List.pop {α : Type} (l : Fifth.List α) : Option (Option α × Fifth.List α) :=
  match l.head with
  | Option.none => Option.some (Option.none, l)
  | Option.some a =>
    match l.heap a with
    | Option.none => Option.none
    | Option.some n =>
      Option.some
        (Option.some n.elem,
         ⟨hremove l.heap a, n.next,
          match n.next with
          | Option.none => Option.none
          | Option.some _ => l.tail,
          l.fresh⟩)

/-- `Repr l es`: the deque `l` is well formed and its elements, head to
tail, are `es`.  This packages the spec's tail invariant: the chain from
`head` is finite and acyclic, the raw `tail` pointer aliases the real last
node of that chain (`getLast?` of its addresses) — so it is null exactly
when the list is empty — and every live address lies below `fresh`. -/
def Repr {α : Type} (l : Fifth.List α) (es : Elems α) : Prop :=
  ∃ as : Elems Nat,
    HeapChain (Fifth.proj l.heap) l.head as es ∧
    l.tail = as.getLast? ∧
    ∀ a : Nat, (l.heap a).isSome = true → a < l.fresh

/-- The spec's deque invariant, element sequence abstracted away. -/
def Inv {α : Type} (l : Fifth.List α) : Prop :=
  ∃ es : Elems α, Fifth.Repr l es

/-- src/fifth.rs's `List` (lines 3-6) carries no derive attribute. -/
def listDerives : Elems String := []

/-- Push a whole sequence, first element first (each push may report
undefined behaviour, which the invariant rules out). -/
def List.pushAll {α : Type} (l : Fifth.List α) : Elems α → Option (Fifth.List α)
  | [] => Option.some l
  | e :: es =>
    match l.push e with
    | Option.none => Option.none
    | Option.some l' => l'.pushAll es

/-- Pop `n` times, collecting the results in call order. -/
def List.popN {α : Type} (l : Fifth.List α) : Nat → Option (Elems (Option α) × Fifth.List α)
  | 0 => Option.some ([], l)
  | n + 1 =>
    match l.pop with
    | Option.none => Option.none
    | Option.some (o, l') =>
      match l'.popN n with
      | Option.none => Option.none
      | Option.some (os, l'') => Option.some (o :: os, l'')

end Fifth

/-! ## Chain lemmas -/

/-- A heap chain from a given pointer is unique: the heap view and the
start pointer determine both the address list and the element list. -/
theorem HeapChain.det {α : Type} {f : Nat → Option (α × Option Nat)}
    {p : Option Nat} {as as' : List Nat} {es es' : List α}
    (h1 : HeapChain f p as es) (h2 : HeapChain f p as' es') :
    as = as' ∧ es = es' := by
  induction h1 generalizing as' es' with
  | nil => cases h2; exact ⟨rfl, rfl⟩
  | cons hf hc ih =>
    cases h2 with
    | cons hf' hc' =>
      rw [hf] at hf'
      simp only [Option.some.injEq, Prod.mk.injEq] at hf'
      obtain ⟨rfl, rfl⟩ := hf'
      obtain ⟨rfl, rfl⟩ := ih hc'
      exact ⟨rfl, rfl⟩

/-- Every member of a chain starts a (strictly shorter) chain of its own. -/
theorem HeapChain.mem_sub {α : Type} {f : Nat → Option (α × Option Nat)}
    {p : Option Nat} {as : List Nat} {es : List α} {a : Nat}
    (h : HeapChain f p as es) (ha : a ∈ as) :
    ∃ bs fs, HeapChain f (Option.some a) (a :: bs) fs ∧ bs.length < as.length := by
  induction h with
  | nil => cases ha
  | cons hf hc ih =>
    rcases List.mem_cons.mp ha with rfl | ha'
    · exact ⟨_, _, HeapChain.cons hf hc, by simp⟩
    · obtain ⟨bs, fs, hsub, hlt⟩ := ih ha'
      exact ⟨bs, fs, hsub, lt_trans hlt (by simp)⟩

/-- The head address of a chain does not recur in its tail (acyclicity). -/
theorem HeapChain.head_not_mem {α : Type} {f : Nat → Option (α × Option Nat)}
    {a : Nat} {as : List Nat} {es : List α}
    (h : HeapChain f (Option.some a) (a :: as) es) : a ∉ as := by
  intro ha
  cases h with
  | cons hf hc =>
    obtain ⟨bs, fs, hsub, hlt⟩ := HeapChain.mem_sub hc ha
    obtain ⟨he, _⟩ := HeapChain.det (HeapChain.cons hf hc) hsub
    injection he with _ he'
    rw [he'] at hlt
    exact absurd hlt (lt_irrefl _)

/-- A chain only reads the heap at its own addresses: two views that agree
there carry the same chain. -/
theorem HeapChain.agree {α : Type} {f f' : Nat → Option (α × Option Nat)}
    {p : Option Nat} {as : List Nat} {es : List α}
    (hag : ∀ a ∈ as, f' a = f a) (h : HeapChain f p as es) :
    HeapChain f' p as es := by
  induction h with
  | nil => exact HeapChain.nil
  | cons hf hc ih =>
    exact HeapChain.cons (by rw [hag _ (by simp)]; exact hf)
      (ih fun a ha => hag a (by simp [ha]))

/-- Chain addresses are live in the heap view. -/
theorem HeapChain.isSome_of_mem {α : Type} {f : Nat → Option (α × Option Nat)}
    {p : Option Nat} {as : List Nat} {es : List α} {a : Nat}
    (h : HeapChain f p as es) (ha : a ∈ as) : (f a).isSome = true := by
  induction h with
  | nil => cases ha
  | cons hf hc ih =>
    rcases List.mem_cons.mp ha with rfl | ha'
    · simp [hf]
    · exact ih ha'

/-- The last node of a non-empty chain has a null `next`. -/
theorem HeapChain.last_next {α : Type} {f : Nat → Option (α × Option Nat)}
    {p : Option Nat} {as : List Nat} {es : List α} {t : Nat}
    (h : HeapChain f p as es) (ht : as.getLast? = Option.some t) :
    ∃ e, f t = Option.some (e, Option.none) := by
  induction h with
  | nil => simp at ht
  | cons hf hc ih =>
    cases hc with
    | nil =>
      simp only [List.getLast?_singleton, Option.some.injEq] at ht
      subst ht
      exact ⟨_, hf⟩
    | cons hf2 hc2 =>
      rw [List.getLast?_cons_cons] at ht
      exact ih ht

/-- `getLast?` returns a member. -/
theorem getLast?_mem_of_eq {α : Type} {l : List α} {t : α}
    (h : l.getLast? = Option.some t) : t ∈ l := by
  induction l with
  | nil => simp at h
  | cons a l ih =>
    cases l with
    | nil =>
      simp only [List.getLast?_singleton, Option.some.injEq] at h
      simp [h]
    | cons b l2 =>
      rw [List.getLast?_cons_cons] at h
      exact List.mem_cons_of_mem _ (ih h)

/-- Extending a chain at its last node: rewire the old last node's null
`next` to a fresh address `b` holding element `eb`; every other chain cell
is untouched.  The chain grows by exactly that node, at the end. -/
theorem HeapChain.snoc {α : Type} {f f' : Nat → Option (α × Option Nat)}
    {p : Option Nat} {as : List Nat} {es : List α} {t b : Nat} {e eb : α}
    (h : HeapChain f p as es)
    (ht : as.getLast? = Option.some t)
    (hag : ∀ x ∈ as, x ≠ t → f' x = f x)
    (hold : f t = Option.some (e, Option.none))
    (hnew : f' t = Option.some (e, Option.some b))
    (hb : f' b = Option.some (eb, Option.none))
    (hbas : b ∉ as) :
    HeapChain f' p (as ++ [b]) (es ++ [eb]) := by
  induction h with
  | nil => simp at ht
  | @cons a ea pa as2 es2 hf hc ih =>
    cases hc with
    | nil =>
      simp only [List.getLast?_singleton, Option.some.injEq] at ht
      subst ht
      rw [hf] at hold
      simp only [Option.some.injEq, Prod.mk.injEq] at hold
      obtain ⟨rfl, -⟩ := hold
      exact HeapChain.cons hnew (HeapChain.cons hb HeapChain.nil)
    | @cons a2 e2 p2 as3 es3 hf2 hc2 =>
      have htail : (a2 :: as3).getLast? = Option.some t := by
        rw [List.getLast?_cons_cons] at ht; exact ht
      have hanot : a ∉ (a2 :: as3) :=
        HeapChain.head_not_mem (HeapChain.cons hf (HeapChain.cons hf2 hc2))
      have hane : a ≠ t := by
        intro hEq
        exact hanot (hEq ▸ getLast?_mem_of_eq htail)
      have hrec :
          HeapChain f' (Option.some a2) ((a2 :: as3) ++ [b]) ((e2 :: es3) ++ [eb]) :=
        ih htail (fun x hx hxt => hag x (List.mem_cons_of_mem _ hx) hxt)
          (fun hx => hbas (List.mem_cons_of_mem _ hx))
      exact HeapChain.cons (by rw [hag a (by simp) hane]; exact hf) hrec

/-! ## OwnedStack (src/second.rs) lemmas -/

theorem Second.elems_push {α : Type} (l : Second.List α) (e : α) :
    (l.push e).elems = e :: l.elems := rfl

theorem Second.elems_pushAll {α : Type} (es : Elems α) (l : Second.List α) :
    (l.pushAll es).elems = es.reverse ++ l.elems := by
  induction es generalizing l with
  | nil => simp [Second.List.pushAll]
  | cons e es ih => simp [Second.List.pushAll, ih, Second.elems_push]

theorem Second.popN_elems {α : Type} (l : Second.List α) :
    l.popN l.elems.length = (l.elems.map Option.some, Second.List.new) := by
  obtain ⟨hd⟩ := l
  induction hd with
  | none => rfl
  | some e n ih =>
    simp only [Second.List.elems, Second.Link.elems, List.length_cons, List.map_cons]
    simp only [Second.List.popN, Second.List.pop]
    simp only [Second.List.elems, Second.Link.elems] at ih
    rw [ih]

theorem Second.collect_iter_eq_elems {α : Type} (lk : Second.Link α) :
    Second.Iter.collect ⟨lk⟩ = lk.elems := by
  induction lk with
  | none => rw [Second.Iter.collect]; rfl
  | some e n ih => rw [Second.Iter.collect]; simp only [Second.Link.elems]; rw [ih]

theorem Second.iterate_next_exhausts {α : Type} (lk : Second.Link α) :
    (fun it => (Second.iterNext it).2)^[lk.elems.length] (⟨lk⟩ : Second.Iter α) =
      ⟨Second.Link.none⟩ := by
  induction lk with
  | none => rfl
  | some e n ih =>
    simp only [Second.Link.elems, List.length_cons]
    rw [Function.iterate_succ_apply]
    exact ih

theorem Second.elems_pushBack_link {α : Type} (lk : Second.Link α) (e : α) :
    (Second.Link.pushBack lk e).elems = lk.elems ++ [e] := by
  induction lk with
  | none => rfl
  | some x n ih => simp [Second.Link.pushBack, Second.Link.elems, ih]

theorem Second.beq_iff_elems {α : Type} [DecidableEq α] (n1 n2 : Second.Link α) :
    Second.Link.beq n1 n2 = true ↔ n1.elems = n2.elems := by
  induction n1 generalizing n2 with
  | none => cases n2 <;> simp [Second.Link.beq, Second.Link.elems]
  | some e n ih =>
    cases n2 <;> simp [Second.Link.beq, Second.Link.elems, ih]

theorem Second.dropStep_iterate {α : Type} (lk : Second.Link α) :
    Second.dropStep^[lk.elems.length] lk = Second.Link.none := by
  induction lk with
  | none => rfl
  | some e n ih =>
    simp only [Second.Link.elems, List.length_cons]
    rw [Function.iterate_succ_apply]
    exact ih

/-! ## PersistentList (src/third.rs) lemmas -/

theorem Third.proj_eq_some {α : Type} {h : Third.Heap α} {a : Nat} {e : α}
    {p : Option Nat} (hp : Third.proj h a = Option.some (e, p)) :
    ∃ n : Third.Node α, h.mem a = Option.some n ∧ n.elem = e ∧ n.next = p := by
  unfold Third.proj at hp
  cases hm : h.mem a with
  | none => rw [hm] at hp; cases hp
  | some n =>
    rw [hm] at hp
    simp at hp
    exact ⟨n, rfl, hp.1, hp.2⟩

/-- The `impl Drop for List` loop of src/third.rs (= `releaseLink`)
terminates within `as.length` iterations on any finite acyclic chain,
whatever the reference counts (on a count above 1 it stops early). -/
theorem Third.releaseLink_terminates {α : Type} :
    ∀ (as : Elems Nat) (h : Third.Heap α) (p : Option Nat) (es : Elems α),
      HeapChain (Third.proj h) p as es →
      ∃ h', Third.releaseLink h p as.length = Option.some h' := by
  intro as
  induction as with
  | nil =>
    intro h p es hc
    cases hc
    exact ⟨h, rfl⟩
  | cons a as2 ih =>
    intro h p es hc
    cases hc with
    | cons hf hc2 =>
      obtain ⟨n, hm, -, hnext⟩ := Third.proj_eq_some hf
      have hnotmem : a ∉ as2 := HeapChain.head_not_mem (HeapChain.cons hf hc2)
      by_cases hrc : n.rc = 1
      · have hagree :
            HeapChain (Third.proj ⟨hremove h.mem a, h.fresh⟩) n.next as2 ‹_› := by
          rw [hnext]
          refine HeapChain.agree (fun x hx => ?_) hc2
          have hxa : x ≠ a := fun hEq => hnotmem (hEq ▸ hx)
          simp [Third.proj, hremove, hxa]
        obtain ⟨h', hrel⟩ := ih ⟨hremove h.mem a, h.fresh⟩ n.next _ hagree
        refine ⟨h', ?_⟩
        simp only [List.length_cons, Third.releaseLink, hm, hrc, if_true]
        exact hrel
      · refine ⟨⟨hupdate h.mem a { n with rc := n.rc - 1 }, h.fresh⟩, ?_⟩
        simp only [List.length_cons, Third.releaseLink, hm, if_neg hrc]

/-! ## Chain inversion lemmas -/

theorem HeapChain.nil_inv {α : Type} {f : Nat → Option (α × Option Nat)}
    {p : Option Nat} {es : List α} (h : HeapChain f p [] es) :
    p = Option.none ∧ es = [] := by
  cases h; exact ⟨rfl, rfl⟩

theorem HeapChain.elems_nil_inv {α : Type} {f : Nat → Option (α × Option Nat)}
    {p : Option Nat} {as : List Nat} (h : HeapChain f p as []) :
    p = Option.none ∧ as = [] := by
  cases h; exact ⟨rfl, rfl⟩

theorem HeapChain.none_inv {α : Type} {f : Nat → Option (α × Option Nat)}
    {as : List Nat} {es : List α} (h : HeapChain f Option.none as es) :
    as = [] ∧ es = [] := by
  cases h; exact ⟨rfl, rfl⟩

theorem HeapChain.cons_inv {α : Type} {f : Nat → Option (α × Option Nat)}
    {p : Option Nat} {a : Nat} {as : List Nat} {es : List α}
    (h : HeapChain f p (a :: as) es) :
    ∃ e pn es', p = Option.some a ∧ f a = Option.some (e, pn) ∧
      es = e :: es' ∧ HeapChain f pn as es' := by
  cases h with
  | cons hf hc => exact ⟨_, _, _, rfl, hf, rfl, hc⟩

theorem HeapChain.some_inv {α : Type} {f : Nat → Option (α × Option Nat)}
    {a : Nat} {as : List Nat} {es : List α}
    (h : HeapChain f (Option.some a) as es) :
    ∃ as' e es' pn, as = a :: as' ∧ f a = Option.some (e, pn) ∧
      es = e :: es' ∧ HeapChain f pn as' es' := by
  cases h with
  | cons hf hc => exact ⟨_, _, _, _, rfl, hf, rfl, hc⟩

/-! ## OwnedDeque (src/fifth.rs) lemmas -/

theorem Fifth.proj_some_node {α : Type} {h : Nat → Option (Fifth.Node α)} {a : Nat}
    {e : α} {p : Option Nat} (hp : Fifth.proj h a = Option.some (e, p)) :
    ∃ n : Fifth.Node α, h a = Option.some n ∧ n.elem = e ∧ n.next = p := by
  unfold Fifth.proj at hp
  cases hm : h a with
  | none => rw [hm] at hp; cases hp
  | some n =>
    rw [hm] at hp
    simp at hp
    exact ⟨n, rfl, hp.1, hp.2⟩

theorem Fifth.repr_new {α : Type} : Fifth.Repr (Fifth.List.new : Fifth.List α) [] := by
  refine ⟨[], HeapChain.nil, rfl, ?_⟩
  intro a ha
  simp [Fifth.List.new] at ha

/-- `push` on a well-formed deque succeeds (writes through no dangling
pointer) and appends the element at the back. -/
theorem Fifth.push_repr {α : Type} {l : Fifth.List α} {es : Elems α}
    (h : Fifth.Repr l es) (e : α) :
    ∃ l', l.push e = Option.some l' ∧ Fifth.Repr l' (es ++ [e]) := by
  obtain ⟨as, hc, htail, hdom⟩ := h
  cases as with
  | nil =>
    obtain ⟨hh, rfl⟩ := HeapChain.nil_inv hc
    have htl : l.tail = Option.none := by simpa using htail
    refine ⟨⟨hupdate l.heap l.fresh ⟨e, Option.none⟩,
             Option.some l.fresh, Option.some l.fresh, l.fresh + 1⟩, ?_, ?_⟩
    · simp [Fifth.List.push, htl]
    · refine ⟨[l.fresh], ?_, rfl, ?_⟩
      · exact HeapChain.cons (by simp [Fifth.proj, hupdate]) HeapChain.nil
      · intro x hx
        show x < l.fresh + 1
        by_cases hxf : x = l.fresh
        · omega
        · have := hdom x (by simpa [hupdate, hxf] using hx)
          omega
  | cons a0 as0 =>
    have hne : (a0 :: as0) ≠ ([] : Elems Nat) := by simp
    have htl : l.tail = Option.some ((a0 :: as0).getLast hne) := by
      rw [htail, List.getLast?_eq_getLast_of_ne_nil hne]
    set t := (a0 :: as0).getLast hne with htdef
    have htmem : t ∈ a0 :: as0 := List.getLast_mem hne
    have htlast : (a0 :: as0).getLast? = Option.some t :=
      List.getLast?_eq_getLast_of_ne_nil hne
    obtain ⟨elast, hlast⟩ := HeapChain.last_next hc htlast
    obtain ⟨n, hmem, hel, hnx⟩ := Fifth.proj_some_node hlast
    have htf : t < l.fresh := hdom t (by simp [hmem])
    have htne : t ≠ l.fresh := by omega
    have hmem1 : hupdate l.heap l.fresh ⟨e, Option.none⟩ t = Option.some n := by
      simp [hupdate, htne, hmem]
    refine ⟨⟨hupdate (hupdate l.heap l.fresh ⟨e, Option.none⟩) t
               { n with next := Option.some l.fresh },
             l.head, Option.some l.fresh, l.fresh + 1⟩, ?_, ?_⟩
    · simp only [Fifth.List.push, htl, hmem1]
    · have hfreshnot : l.fresh ∉ a0 :: as0 := by
        intro hmem2
        have := hdom l.fresh (by
          have := HeapChain.isSome_of_mem hc hmem2
          simpa [Fifth.proj, Option.isSome_map] using this)
        omega
      refine ⟨(a0 :: as0) ++ [l.fresh], ?_, ?_, ?_⟩
      · refine HeapChain.snoc (e := elast) hc htlast ?_ ?_ ?_ ?_ hfreshnot
        · intro x hx hxt
          have hxf : x < l.fresh := hdom x (by
            have := HeapChain.isSome_of_mem hc hx
            simpa [Fifth.proj, Option.isSome_map] using this)
          simp [Fifth.proj, hupdate, hxt, Nat.ne_of_lt hxf]
        · exact hlast
        · simp [Fifth.proj, hupdate, hel]
        · simp [Fifth.proj, hupdate, htne.symm]
      · rw [List.getLast?_concat]
      · intro x hx
        show x < l.fresh + 1
        by_cases hxt : x = t
        · omega
        · by_cases hxf : x = l.fresh
          · omega
          · have := hdom x (by simpa [hupdate, hxt, hxf] using hx)
            omega

/-- `pop` on a well-formed non-empty deque returns the front element and
preserves well-formedness (clearing `tail` when the deque empties). -/
theorem Fifth.pop_repr_cons {α : Type} {l : Fifth.List α} {e : α} {es : Elems α}
    (h : Fifth.Repr l (e :: es)) :
    ∃ l', l.pop = Option.some (Option.some e, l') ∧ Fifth.Repr l' es := by
  obtain ⟨as, hc, htail, hdom⟩ := h
  cases as with
  | nil => obtain ⟨-, h2⟩ := HeapChain.nil_inv hc; cases h2
  | cons a0 as0 =>
    obtain ⟨e0, pn, es', hp, hf, hes, hc0⟩ := HeapChain.cons_inv hc
    injection hes with h1 h2
    subst h1
    subst h2
    obtain ⟨n, hmem, hel, hnx⟩ := Fifth.proj_some_node hf
    have hnotmem : a0 ∉ as0 := HeapChain.head_not_mem (hp ▸ hc)
    have hagree : HeapChain (Fifth.proj (hremove l.heap a0)) pn as0 es := by
      refine HeapChain.agree (fun x hx => ?_) hc0
      have hxa : x ≠ a0 := fun hEq => hnotmem (hEq ▸ hx)
      simp [Fifth.proj, hremove, hxa]
    refine ⟨⟨hremove l.heap a0, n.next,
             match n.next with
             | Option.none => Option.none
             | Option.some _ => l.tail, l.fresh⟩, ?_, ?_⟩
    · simp only [Fifth.List.pop, hp, hmem, hel]
    · refine ⟨as0, by rw [hnx]; exact hagree, ?_, ?_⟩
      · rw [hnx]
        cases hpn : pn with
        | none =>
          obtain ⟨rfl, -⟩ := HeapChain.none_inv (hpn ▸ hc0)
          rfl
        | some b =>
          obtain ⟨as1, e1, es1, pn1, rfl, -, -, -⟩ := HeapChain.some_inv (hpn ▸ hc0)
          rw [htail, List.getLast?_cons_cons]
      · intro x hx
        exact hdom x (by
          by_cases hxa : x = a0
          · simp [hremove, hxa] at hx
          · simpa [hremove, hxa] using hx)

/-- `pop` on a well-formed empty deque: the tail pointer is already null
and the pop is a no-op returning the empty marker. -/
theorem Fifth.pop_repr_nil {α : Type} {l : Fifth.List α} (h : Fifth.Repr l []) :
    l.tail = Option.none ∧ l.pop = Option.some (Option.none, l) := by
  obtain ⟨as, hc, htail, -⟩ := h
  obtain ⟨hp, rfl⟩ := HeapChain.elems_nil_inv hc
  refine ⟨by simpa using htail, ?_⟩
  simp only [Fifth.List.pop, hp]

theorem Fifth.pushAll_repr {α : Type} :
    ∀ (fs : Elems α) {l : Fifth.List α} {es : Elems α},
      Fifth.Repr l es →
      ∃ l', l.pushAll fs = Option.some l' ∧ Fifth.Repr l' (es ++ fs) := by
  intro fs
  induction fs with
  | nil =>
    intro l es h
    exact ⟨l, rfl, by simpa using h⟩
  | cons f fs ih =>
    intro l es h
    obtain ⟨l1, hp, h1⟩ := Fifth.push_repr h f
    obtain ⟨l', hpa, h2⟩ := ih h1
    refine ⟨l', ?_, by simpa using h2⟩
    simp only [Fifth.List.pushAll, hp]
    exact hpa

theorem Fifth.popN_repr {α : Type} :
    ∀ (es : Elems α) {l : Fifth.List α},
      Fifth.Repr l es →
      ∃ l', l.popN es.length = Option.some (es.map Option.some, l') ∧
        Fifth.Repr l' [] := by
  intro es
  induction es with
  | nil => intro l h; exact ⟨l, rfl, h⟩
  | cons e es ih =>
    intro l h
    obtain ⟨l1, hp, h1⟩ := Fifth.pop_repr_cons h
    obtain ⟨l', hpn, h2⟩ := ih h1
    refine ⟨l', ?_, h2⟩
    simp only [List.length_cons, Fifth.List.popN, hp, hpn, List.map_cons]

/-- `Link::clone` changes no element and no `next` pointer (it only bumps a
reference count), and allocates nothing. -/
theorem Third.clone_proj {α : Type} {h h1 : Third.Heap α} {p : Option Nat}
    (hcl : Third.clone h p = Option.some h1) :
    Third.proj h1 = Third.proj h ∧ h1.fresh = h.fresh := by
  cases p with
  | none =>
    simp only [Third.clone, Option.some.injEq] at hcl
    rw [← hcl]
    exact ⟨rfl, rfl⟩
  | some a =>
    simp only [Third.clone] at hcl
    cases hm : h.mem a with
    | none => rw [hm] at hcl; cases hcl
    | some n =>
      rw [hm] at hcl
      simp only [Option.some.injEq] at hcl
      rw [← hcl]
      refine ⟨funext fun x => ?_, rfl⟩
      by_cases hxa : x = a
      · simp [Third.proj, hupdate, hxa, hm]
      · simp [Third.proj, hupdate, hxa]

/-! ## Claim theorems -/

/-- C1: OwnedStack LIFO law — pushing `e1 … en` onto a fresh stack and then
popping `n` times returns `some en, …, some e2, some e1` in that order, and
an (n+1)-th pop returns the empty marker `none`. -/
theorem second_lifo_law :
    ∀ (α : Type) (es : Elems α),
      ((Second.List.new.pushAll es).popN es.length).1 = es.reverse.map Option.some ∧
      (((Second.List.new.pushAll es).popN es.length).2.pop).1 = Option.none := by
  intro α es
  have he : (Second.List.new.pushAll es).elems = es.reverse := by
    rw [Second.elems_pushAll]
    simp [Second.List.new, Second.List.elems, Second.Link.elems]
  have hlen : es.length = (Second.List.new.pushAll es).elems.length := by
    rw [he, List.length_reverse]
  rw [hlen, Second.popN_elems, he]
  exact ⟨rfl, rfl⟩

/-- C2: OwnedDeque FIFO law — pushing `e1 … en` at the back of a fresh
deque (`push`, the file's `push_back`) and then popping `n` times from the
front (`pop`) yields `some e1, …, some en` in order; no step hits a
dangling pointer. -/
theorem fifth_fifo_law :
    ∀ (α : Type) (es : Elems α),
      (Fifth.List.pushAll Fifth.List.new es).bind
          (fun l => (l.popN es.length).map Prod.fst) =
        Option.some (es.map Option.some) := by
  intro α es
  obtain ⟨l1, hpa, h1⟩ := Fifth.pushAll_repr es Fifth.repr_new
  obtain ⟨l', hpn, -⟩ := Fifth.popN_repr es (by simpa using h1)
  rw [hpa]
  have hbind :
      Option.bind (Option.some l1) (fun l => (l.popN es.length).map Prod.fst) =
        (l1.popN es.length).map Prod.fst := rfl
  rw [hbind, hpn]
  rfl

/-- C3: the deque's tail invariant — "the raw tail pointer aliases the real
last node, and is null exactly when the list is empty" (packaged with
finiteness/acyclicity in `Fifth.Repr`) — holds for `new` and is preserved
by every `push` and `pop` (which in addition never touch a dangling
pointer); once the deque is empty the tail pointer has been cleared, so a
subsequent `push` makes the new element the sole element. -/
theorem fifth_tail_invariant :
    (∀ (α : Type), Fifth.Inv (Fifth.List.new : Fifth.List α)) ∧
    (∀ (α : Type) (l : Fifth.List α) (e : α),
        Fifth.Inv l → ∃ l', l.push e = Option.some l' ∧ Fifth.Inv l') ∧
    (∀ (α : Type) (l : Fifth.List α),
        Fifth.Inv l → ∃ r l', l.pop = Option.some (r, l') ∧ Fifth.Inv l') ∧
    (∀ (α : Type) (l : Fifth.List α) (e : α),
        Fifth.Repr l [] →
          l.tail = Option.none ∧
          ∃ l', l.push e = Option.some l' ∧ Fifth.Repr l' [e]) := by
  refine ⟨fun α => ⟨[], Fifth.repr_new⟩, ?_, ?_, ?_⟩
  · intro α l e hi
    obtain ⟨es, h⟩ := hi
    obtain ⟨l', hp, h'⟩ := Fifth.push_repr h e
    exact ⟨l', hp, es ++ [e], h'⟩
  · intro α l hi
    obtain ⟨es, h⟩ := hi
    cases es with
    | nil =>
      obtain ⟨-, hp⟩ := Fifth.pop_repr_nil h
      exact ⟨Option.none, l, hp, [], h⟩
    | cons e es =>
      obtain ⟨l', hp, h'⟩ := Fifth.pop_repr_cons h
      exact ⟨Option.some e, l', hp, es, h'⟩
  · intro α l e h
    obtain ⟨ht, -⟩ := Fifth.pop_repr_nil h
    obtain ⟨l', hp, h'⟩ := Fifth.push_repr h e
    exact ⟨ht, l', hp, by simpa using h'⟩

/-- C3 witness: on the concrete empty deque the tail pointer is null and a
push makes 7 the sole element. -/
theorem fifth_tail_invariant_witness :
    (Fifth.List.new : Fifth.List Nat).tail = Option.none ∧
    ∃ l', (Fifth.List.new : Fifth.List Nat).push 7 = Option.some l' ∧
      Fifth.Repr l' [7] :=
  fifth_tail_invariant.2.2.2 Nat Fifth.List.new 7 Fifth.repr_new

/-- C4 (supporting): the explicit teardown loops that do exist are
iterative and terminate on every finite acyclic chain: src/second.rs's
Drop loop detaches exactly one node per iteration and empties any chain in
`length` steps, and src/third.rs's Drop loop finishes within `length`
iterations whatever the reference counts (stopping early at a shared
node).  src/fifth.rs declares no Drop implementation at all, so only the
compiler-derived recursive drop applies to the deque. -/
theorem iterative_teardown_terminates :
    (∀ (α : Type) (lk : Second.Link α),
        Second.dropStep^[lk.elems.length] lk = Second.Link.none) ∧
    (∀ (α : Type) (h : Third.Heap α) (p : Option Nat) (as : Elems Nat)
        (es : Elems α),
        HeapChain (Third.proj h) p as es →
        ∃ h', Third.releaseLink h p as.length = Option.some h') :=
  ⟨fun _ lk => Second.dropStep_iterate lk,
   fun _ h p as es hc => Third.releaseLink_terminates as h p es hc⟩

/-- C5: PersistentList structural-sharing access pattern — with
`a = new().prepend(1).prepend(2).prepend(3)`: `a.head() = Some(3)`,
`b = a.tail()` has head `Some(2)`, `c = b.tail()` has head `Some(1)`,
`c.tail().head() = None`, and `tail()` of that empty list is again an
empty list whose head is `None` (idempotent at the boundary).  The run
threads the reference-counting heap through every operation, including the
count adjustments `tail` makes. -/
theorem third_structural_sharing :
    ((Third.List.prepend (Third.Heap.empty : Third.Heap Nat) Third.List.new 1).bind fun s1 =>
     (Third.List.prepend s1.1 s1.2 2).bind fun s2 =>
     (Third.List.prepend s2.1 s2.2 3).bind fun sa =>
     (Third.List.tail sa.1 sa.2).bind fun sb =>
     (Third.List.tail sb.1 sb.2).bind fun sc =>
     (Third.List.tail sc.1 sc.2).bind fun sd =>
     (Third.List.tail sd.1 sd.2).bind fun se =>
     Option.some (Third.List.headVal se.1 sa.2, Third.List.headVal se.1 sb.2,
       Third.List.headVal se.1 sc.2, Third.List.headVal se.1 sd.2,
       Third.List.headVal se.1 se.2, se.2.head)) =
    Option.some (Option.some (Option.some 3), Option.some (Option.some 2),
       Option.some (Option.some 1), Option.some Option.none, Option.some Option.none,
       Option.none) := rfl

/-- C6: `prepend` leaves every existing list value's observable contents
untouched: it only bumps one reference count and allocates one fresh node,
so any chain readable before (`q`, which may be the receiver itself or any
list sharing a suffix with it) reads identically afterwards, while the
returned list reads `e` followed by the receiver's elements. -/
theorem third_prepend_frame :
    ∀ (α : Type) (h : Third.Heap α) (l q : Third.List α) (as bs : Elems Nat)
      (es fs : Elems α) (e : α),
      (∀ a : Nat, (h.mem a).isSome = true → a < h.fresh) →
      HeapChain (Third.proj h) l.head as es →
      HeapChain (Third.proj h) q.head bs fs →
      ∃ h' l', Third.List.prepend h l e = Option.some (h', l') ∧
        HeapChain (Third.proj h') q.head bs fs ∧
        HeapChain (Third.proj h') l'.head (h.fresh :: as) (e :: es) := by
  intro α h l q as bs es fs e hdom hcl hcq
  have hclone : ∃ h1, Third.clone h l.head = Option.some h1 := by
    cases hlh : l.head with
    | none => exact ⟨h, rfl⟩
    | some a =>
      obtain ⟨as', e0, es', pn, -, hf, -, -⟩ := HeapChain.some_inv (hlh ▸ hcl)
      obtain ⟨n, hm, -, -⟩ := Third.proj_eq_some hf
      exact ⟨⟨hupdate h.mem a { n with rc := n.rc + 1 }, h.fresh⟩,
             by simp [Third.clone, hm]⟩
  obtain ⟨h1, hcl1⟩ := hclone
  obtain ⟨hproj, hfresh⟩ := Third.clone_proj hcl1
  refine ⟨⟨hupdate h1.mem h1.fresh ⟨e, l.head, 1⟩, h1.fresh + 1⟩,
          ⟨Option.some h1.fresh⟩, ?_, ?_, ?_⟩
  · simp only [Third.List.prepend, hcl1]
  · refine HeapChain.agree (fun x hx => ?_) hcq
    have hxf : x < h.fresh := hdom x (by
      have := HeapChain.isSome_of_mem hcq hx
      simpa [Third.proj, Option.isSome_map] using this)
    have hxne : x ≠ h1.fresh := by rw [hfresh]; omega
    simp only [Third.proj, hupdate, if_neg hxne]
    have := congrFun hproj x
    simpa [Third.proj] using this
  · rw [hfresh]
    refine HeapChain.cons ?_ (HeapChain.agree (fun x hx => ?_) hcl)
    · simp [Third.proj, hupdate]
    · have hxf : x < h.fresh := hdom x (by
        have := HeapChain.isSome_of_mem hcl hx
        simpa [Third.proj, Option.isSome_map] using this)
      have hxne : x ≠ h.fresh := by omega
      simp only [Third.proj, hupdate, if_neg hxne]
      have := congrFun hproj x
      simpa [Third.proj] using this

/-- C6 witness: prepending 5 onto the empty list in the empty heap
succeeds, frames the (empty) other chain, and the new list reads `[5]`. -/
theorem third_prepend_frame_witness :
    ∃ h' l', Third.List.prepend (Third.Heap.empty : Third.Heap Nat)
        Third.List.new 5 = Option.some (h', l') ∧
      HeapChain (Third.proj h') Option.none [] [] ∧
      HeapChain (Third.proj h') l'.head [0] [5] :=
  third_prepend_frame Nat Third.Heap.empty Third.List.new Third.List.new
    [] [] [] [] 5 (fun a ha => by simp [Third.Heap.empty] at ha)
    HeapChain.nil HeapChain.nil

/-- C7 counterexample: neither the PersistentList (src/third.rs line 3)
nor the OwnedDeque (src/fifth.rs lines 3-6) derives `PartialEq`, so the
claimed standard equality comparison does not exist on those two types. -/
theorem equality_not_on_all_three :
    Third.listDerives.contains "PartialEq" = false ∧
    Fifth.listDerives.contains "PartialEq" = false :=
  ⟨rfl, rfl⟩

/-- C7 (amended): only the OwnedStack derives an equality comparison
(`#[derive(PartialEq, Debug)]`), and that comparison is structural,
element-wise and order-sensitive — two stacks compare equal exactly when
their element sequences coincide; the other two list types carry no derive
attribute. -/
theorem second_equality_structural :
    (∀ (α : Type) [DecidableEq α] (l1 l2 : Second.List α),
        Second.List.beq l1 l2 = true ↔ l1.elems = l2.elems) ∧
    Second.listDerives.contains "PartialEq" = true ∧
    Third.listDerives = [] ∧ Fifth.listDerives = [] := by
  refine ⟨?_, by decide, rfl, rfl⟩
  intro α _ l1 l2
  exact Second.beq_iff_elems l1.head l2.head

/-- C8: `iter()` yields the elements in head-to-end order (for pushes
1, 2, 3 the yields are 3, 2, 1), the sequence is finite — after exactly
`length` steps the cursor is exhausted and yields `none` — and since
`iter` only copies the borrowed head cursor (`&self`), the list itself is
left unchanged and a repeated `iter()` starts over from the current head
with the same yields. -/
theorem second_iter_yields_in_order :
    (∀ (α : Type) (l : Second.List α),
        Second.Iter.collect l.iter = l.elems ∧
        (fun it => (Second.iterNext it).2)^[l.elems.length] l.iter =
          (⟨Second.Link.none⟩ : Second.Iter α) ∧
        (Second.iterNext (⟨Second.Link.none⟩ : Second.Iter α)).1 = Option.none) ∧
    Second.Iter.collect (((Second.List.new.push 1).push 2).push 3 :
        Second.List Nat).iter = [3, 2, 1] := by
  constructor
  · intro α l
    exact ⟨Second.collect_iter_eq_elems l.head,
           Second.iterate_next_exhausts l.head, rfl⟩
  · exact Second.collect_iter_eq_elems _

/-- C9: querying an empty list never fails — on the empty OwnedStack both
`peek` and `pop` return the empty marker `none`, and on the empty
PersistentList `head` returns the empty marker (in any heap, without
touching it); absence is an `Option` result, not an error or abort. -/
theorem empty_query_reports_none :
    ∀ (α : Type) (h : Third.Heap α),
      (Second.List.new : Second.List α).peek = Option.none ∧
      ((Second.List.new : Second.List α).pop).1 = Option.none ∧
      Third.List.headVal h Third.List.new = Option.some Option.none := by
  intro α h
  exact ⟨rfl, rfl, rfl⟩

/-- C10: the OwnedStack's extra `push_back` appends at the end of the
chain: the head-to-end element sequence gains `e` at the back; hence on a
non-empty list the head element (`peek`) is unchanged and on an empty list
`e` becomes the sole element. -/
theorem second_push_back_appends :
    (∀ (α : Type) (l : Second.List α) (e : α),
        (l.pushBack e).elems = l.elems ++ [e]) ∧
    (∀ (α : Type) (l : Second.List α) (e : α),
        l.elems ≠ [] → (l.pushBack e).peek = l.peek) ∧
    (∀ (α : Type) (l : Second.List α) (e : α),
        l.elems = [] → (l.pushBack e).elems = [e]) := by
  refine ⟨fun α l e => Second.elems_pushBack_link l.head e, ?_, ?_⟩
  · intro α l e hne
    obtain ⟨hd⟩ := l
    cases hd with
    | none => simp [Second.List.elems, Second.Link.elems] at hne
    | some x n => rfl
  · intro α l e h0
    obtain ⟨hd⟩ := l
    cases hd with
    | none => rfl
    | some x n => simp [Second.List.elems, Second.Link.elems] at h0
